import Mathlib

/-!
Verification of the launch-feed logic of the startup-directory web app:
rotation, boosted-interleaving, pagination, weekly leaderboard, the
read-through launches cache, the upvote toggle and the startup update
authorization rule.  Each definition is a shallow embedding of the
corresponding source function; theorems settle the specified properties.
-/

namespace Launch14

/-- Listing tier, `src/src/lib/types/launch` / `LaunchPage.tsx`:
`listingType ∈ {regular, boosted, premium}` (absent defaults to regular). -/
inductive ListingType where
  | regular
  | boosted
  | premium
deriving DecidableEq, Repr

/-- The fields of a `Launch` record that the verified logic reads
(`launchDate` as epoch milliseconds, an integer as in JS `Date` math). -/
structure Launch where
  id : Nat
  listingType : ListingType
  launchDate : Int
  upvotes : Nat
deriving DecidableEq, Repr

/-- Element sequence produced by `getRotatedLaunches` (LaunchPage.tsx 168-180):
`launches.slice(rotationIndex) ++ launches.slice(0, rotationIndex)`.
The code additionally tags each element with a render-only `uniqueKey`
string; the tag does not affect the element order and is omitted here. -/
def rotateLaunches (rotationIndex : Nat) (launches : List α) : List α :=
  launches.drop rotationIndex ++ launches.take rotationIndex

/-- `insertAt l i a` is JS `l.splice(i, 0, a)`: insert `a` at position `i`
(appending when `i ≥ l.length`, as `splice` clamps the index). -/
def insertAt (l : List α) (i : Nat) (a : α) : List α :=
  l.take i ++ a :: l.drop i

/-- The `forEach` walk of `insertBoostedLaunches` (LaunchPage.tsx 194-201):
push each regular element; after every `spacing`-th element (1-indexed)
push the next unused boosted element, while any remain.  Returns the built
result together with the boosted elements not yet consumed. -/
def interleaveWalk (spacing : Nat) : Nat → List α → List α → List α × List α
  | _, [], boosted => ([], boosted)
  | idx, r :: rs, boosted =>
    if (idx + 1) % spacing == 0 then
      match boosted with
      | [] =>
        let rest := interleaveWalk spacing (idx + 1) rs []
        (r :: rest.1, rest.2)
      | b :: bs =>
        let rest := interleaveWalk spacing (idx + 1) rs bs
        (r :: b :: rest.1, rest.2)
    else
      let rest := interleaveWalk spacing (idx + 1) rs boosted
      (r :: rest.1, rest.2)

/-- The `while` loop of `insertBoostedLaunches` (LaunchPage.tsx 203-207):
splice each leftover boosted element into the result built so far at
`floor((result.length / (total - k + 1)) * (k + 1))` where `k` is the
running boosted index.  The JS float expression is modelled by the
integer floor `result.length * (k + 1) / (total - k + 1)`. -/
def spliceLeftovers (total : Nat) : Nat → List α → List α → List α
  | _, acc, [] => acc
  | k, acc, b :: bs =>
    spliceLeftovers total (k + 1) (insertAt acc (acc.length * (k + 1) / (total - k + 1)) b) bs

/-- Interleave body for nonempty inputs (LaunchPage.tsx 187-209):
`spacing = max(floor(R/B), 2)`, then the walk followed by the splice loop,
starting the splice at the number of boosted elements already consumed. -/
def insertBoostedCore (regular boosted : List α) : List α :=
  let spacing := max (regular.length / boosted.length) 2
  let w := interleaveWalk spacing 0 regular boosted
  spliceLeftovers boosted.length (boosted.length - w.2.length) w.1 w.2

/-- `insertBoostedLaunches` (LaunchPage.tsx 182-210).  When either list is
empty the code returns `getRotatedLaunches(regularLaunches)`; otherwise it
rotates both lists by the shared rotation index and runs the interleave. -/
def insertBoostedLaunches (rotationIndex : Nat) (regularLaunches boostedLaunches : List α) :
    List α :=
  if boostedLaunches.isEmpty || regularLaunches.isEmpty then
    rotateLaunches rotationIndex regularLaunches
  else
    insertBoostedCore (rotateLaunches rotationIndex regularLaunches)
      (rotateLaunches rotationIndex boostedLaunches)

/-- A rotated list is a permutation of the original. -/
theorem rotateLaunches_perm (i : Nat) (l : List α) : (rotateLaunches i l).Perm l := by
  have h : l.take i ++ l.drop i = l := List.take_append_drop i l
  calc (rotateLaunches i l).Perm (l.take i ++ l.drop i) := List.perm_append_comm
    _ = l := h

/-- Rotation preserves length. -/
theorem rotateLaunches_length (i : Nat) (l : List α) :
    (rotateLaunches i l).length = l.length :=
  (rotateLaunches_perm i l).length_eq

/-- The walk emits every regular element plus one boosted element per
consumed slot: result length plus leftover length is `R + B`. -/
theorem interleaveWalk_length (spacing : Nat) (reg : List α) :
    ∀ (idx : Nat) (boo : List α),
      (interleaveWalk spacing idx reg boo).1.length
        + (interleaveWalk spacing idx reg boo).2.length = reg.length + boo.length := by
  induction reg with
  | nil => intro idx boo; simp [interleaveWalk]
  | cons r rs ih =>
    intro idx boo
    cases boo with
    | nil =>
      have h1 := ih (idx + 1) []
      simp at h1
      by_cases h : ((idx + 1) % spacing == 0) = true <;>
        · simp [interleaveWalk, h]
          omega
    | cons b bs =>
      by_cases h : ((idx + 1) % spacing == 0) = true
      · have h1 := ih (idx + 1) bs
        simp at h1
        simp [interleaveWalk, h]
        omega
      · have h1 := ih (idx + 1) (b :: bs)
        simp at h1
        simp [interleaveWalk, h]
        omega

/-- Restricting the walk's result to non-boosted elements recovers the
regular input unchanged: regular relative order is preserved. -/
theorem interleaveWalk_filter_reg (p : α → Bool) (spacing : Nat) (reg : List α) :
    ∀ (idx : Nat) (boo : List α), (∀ a ∈ reg, p a = false) → (∀ b ∈ boo, p b = true) →
      (interleaveWalk spacing idx reg boo).1.filter (fun a => !p a) = reg := by
  induction reg with
  | nil => intro idx boo _ _; simp [interleaveWalk]
  | cons r rs ih =>
    intro idx boo hreg hboo
    have hr : p r = false := hreg r (List.mem_cons_self r rs)
    have hrs : ∀ a ∈ rs, p a = false := fun a ha => hreg a (List.mem_cons_of_mem r ha)
    cases boo with
    | nil =>
      by_cases h : ((idx + 1) % spacing == 0) = true <;>
        · simp [interleaveWalk, h, hr, ih (idx + 1) [] hrs (by simp)]
    | cons b bs =>
      have hb : p b = true := hboo b (List.mem_cons_self b bs)
      have hbs : ∀ x ∈ bs, p x = true := fun x hx => hboo x (List.mem_cons_of_mem b hx)
      by_cases h : ((idx + 1) % spacing == 0) = true
      · simp [interleaveWalk, h, hr, hb, ih (idx + 1) bs hrs hbs]
      · simp [interleaveWalk, h, hr, ih (idx + 1) (b :: bs) hrs hboo]

/-- The boosted elements the walk emits, in emission order, followed by the
leftover boosted elements, are exactly the boosted input: the walk consumes
boosted elements in order from the front. -/
theorem interleaveWalk_filter_boo (p : α → Bool) (spacing : Nat) (reg : List α) :
    ∀ (idx : Nat) (boo : List α), (∀ a ∈ reg, p a = false) → (∀ b ∈ boo, p b = true) →
      (interleaveWalk spacing idx reg boo).1.filter p
        ++ (interleaveWalk spacing idx reg boo).2 = boo := by
  induction reg with
  | nil => intro idx boo _ _; simp [interleaveWalk]
  | cons r rs ih =>
    intro idx boo hreg hboo
    have hr : p r = false := hreg r (List.mem_cons_self r rs)
    have hrs : ∀ a ∈ rs, p a = false := fun a ha => hreg a (List.mem_cons_of_mem r ha)
    cases boo with
    | nil =>
      by_cases h : ((idx + 1) % spacing == 0) = true <;>
        · simp [interleaveWalk, h, hr, ih (idx + 1) [] hrs (by simp)]
    | cons b bs =>
      have hb : p b = true := hboo b (List.mem_cons_self b bs)
      have hbs : ∀ x ∈ bs, p x = true := fun x hx => hboo x (List.mem_cons_of_mem b hx)
      by_cases h : ((idx + 1) % spacing == 0) = true
      · simp [interleaveWalk, h, hr, hb, ih (idx + 1) bs hrs hbs]
      · simp [interleaveWalk, h, hr, ih (idx + 1) (b :: bs) hrs hboo]

/-- Leftover boosted elements come from the boosted input. -/
theorem interleaveWalk_snd_mem (p : α → Bool) (spacing : Nat) (reg : List α)
    (idx : Nat) (boo : List α) (hreg : ∀ a ∈ reg, p a = false)
    (hboo : ∀ b ∈ boo, p b = true) :
    ∀ b ∈ (interleaveWalk spacing idx reg boo).2, b ∈ boo := by
  intro b hb
  rw [← interleaveWalk_filter_boo p spacing reg idx boo hreg hboo]
  exact List.mem_append_right _ hb

/-- Unfolding: a slot position with boosted elements available. -/
theorem interleaveWalk_cons_slot (spacing idx : Nat) (r b : α) (rs bs : List α)
    (h : ((idx + 1) % spacing == 0) = true) :
    interleaveWalk spacing idx (r :: rs) (b :: bs)
      = (r :: b :: (interleaveWalk spacing (idx + 1) rs bs).1,
          (interleaveWalk spacing (idx + 1) rs bs).2) := by
  simp [interleaveWalk, h]

/-- Unfolding: a slot position with no boosted element left. -/
theorem interleaveWalk_cons_slot_empty (spacing idx : Nat) (r : α) (rs : List α)
    (h : ((idx + 1) % spacing == 0) = true) :
    interleaveWalk spacing idx (r :: rs) []
      = (r :: (interleaveWalk spacing (idx + 1) rs []).1,
          (interleaveWalk spacing (idx + 1) rs []).2) := by
  simp [interleaveWalk, h]

/-- Unfolding: a non-slot position. -/
theorem interleaveWalk_cons_noslot (spacing idx : Nat) (r : α) (rs boo : List α)
    (h : ¬((idx + 1) % spacing == 0) = true) :
    interleaveWalk spacing idx (r :: rs) boo
      = (r :: (interleaveWalk spacing (idx + 1) rs boo).1,
          (interleaveWalk spacing (idx + 1) rs boo).2) := by
  simp [interleaveWalk, h]

/-- With no boosted elements pending, the walk leaves no leftovers. -/
theorem interleaveWalk_snd_empty (spacing : Nat) (reg : List α) :
    ∀ (idx : Nat), (interleaveWalk spacing idx reg []).2 = [] := by
  induction reg with
  | nil => intro idx; rfl
  | cons r rs ih =>
    intro idx
    by_cases h : ((idx + 1) % spacing == 0) = true
    · rw [interleaveWalk_cons_slot_empty spacing idx r rs h]; exact ih (idx + 1)
    · rw [interleaveWalk_cons_noslot spacing idx r rs [] h]; exact ih (idx + 1)

/-- Prepending a regular element never creates a boosted-boosted adjacency. -/
theorem chainNoTwo_cons (p : α → Bool) (r : α) (l : List α) (hr : p r = false)
    (h1 : List.Chain' (fun a b => p a = false ∨ p b = false) l) :
    List.Chain' (fun a b => p a = false ∨ p b = false) (r :: l) := by
  cases l with
  | nil => exact List.chain'_singleton r
  | cons y ys => exact List.Chain'.cons (Or.inl hr) h1

/-- Prepending any element to a list that is empty or starts with a regular
element never creates a boosted-boosted adjacency. -/
theorem chainNoTwo_cons_head (p : α → Bool) (b : α) (l : List α)
    (h1 : List.Chain' (fun a b => p a = false ∨ p b = false) l)
    (hhd : l = [] ∨ ∃ y ys, l = y :: ys ∧ p y = false) :
    List.Chain' (fun a b => p a = false ∨ p b = false) (b :: l) := by
  rcases hhd with rfl | ⟨y, ys, rfl, hy⟩
  · exact List.chain'_singleton b
  · exact List.Chain'.cons (Or.inr hy) h1

/-- The walk's result has no two adjacent boosted elements, and when
nonempty it starts with a regular element. -/
theorem interleaveWalk_chain (p : α → Bool) (spacing : Nat) (reg : List α) :
    ∀ (idx : Nat) (boo : List α), (∀ a ∈ reg, p a = false) → (∀ b ∈ boo, p b = true) →
      List.Chain' (fun a b => p a = false ∨ p b = false)
          (interleaveWalk spacing idx reg boo).1 ∧
        ((interleaveWalk spacing idx reg boo).1 = [] ∨
          ∃ y ys, (interleaveWalk spacing idx reg boo).1 = y :: ys ∧ p y = false) := by
  induction reg with
  | nil => intro idx boo _ _; simp [interleaveWalk]
  | cons r rs ih =>
    intro idx boo hreg hboo
    have hr : p r = false := hreg r (List.mem_cons_self r rs)
    have hrs : ∀ a ∈ rs, p a = false := fun a ha => hreg a (List.mem_cons_of_mem r ha)
    cases boo with
    | nil =>
      have h1 := ih (idx + 1) [] hrs (by simp)
      by_cases h : ((idx + 1) % spacing == 0) = true
      · rw [interleaveWalk_cons_slot_empty spacing idx r rs h]
        exact ⟨chainNoTwo_cons p r _ hr h1.1, Or.inr ⟨r, _, rfl, hr⟩⟩
      · rw [interleaveWalk_cons_noslot spacing idx r rs [] h]
        exact ⟨chainNoTwo_cons p r _ hr h1.1, Or.inr ⟨r, _, rfl, hr⟩⟩
    | cons b bs =>
      have hbs : ∀ x ∈ bs, p x = true := fun x hx => hboo x (List.mem_cons_of_mem b hx)
      by_cases h : ((idx + 1) % spacing == 0) = true
      · have h1 := ih (idx + 1) bs hrs hbs
        rw [interleaveWalk_cons_slot spacing idx r b rs bs h]
        exact ⟨chainNoTwo_cons p r _ hr (chainNoTwo_cons_head p b _ h1.1 h1.2),
          Or.inr ⟨r, _, rfl, hr⟩⟩
      · have h1 := ih (idx + 1) (b :: bs) hrs hboo
        rw [interleaveWalk_cons_noslot spacing idx r rs (b :: bs) h]
        exact ⟨chainNoTwo_cons p r _ hr h1.1, Or.inr ⟨r, _, rfl, hr⟩⟩

/-- When the boosted count does not exceed the number of slot positions in
the walk (counted via integer division), every boosted element is consumed:
no leftovers remain for the splice loop. -/
theorem interleaveWalk_exhausts (spacing : Nat) (reg : List α) :
    ∀ (idx : Nat) (boo : List α),
      boo.length + idx / spacing ≤ (idx + reg.length) / spacing →
      (interleaveWalk spacing idx reg boo).2 = [] := by
  induction reg with
  | nil =>
    intro idx boo hle
    simp only [List.length_nil, Nat.add_zero] at hle
    have hz : boo.length = 0 := by omega
    have : boo = [] := List.length_eq_zero.mp hz
    subst this
    rfl
  | cons r rs ih =>
    intro idx boo hle
    simp only [List.length_cons] at hle
    have harg : idx + (rs.length + 1) = idx + 1 + rs.length := by omega
    rw [harg] at hle
    have hdiv := Nat.succ_div idx spacing
    cases boo with
    | nil => exact interleaveWalk_snd_empty spacing (r :: rs) idx
    | cons b bs =>
      simp only [List.length_cons] at hle
      by_cases h : ((idx + 1) % spacing == 0) = true
      · have hmod : (idx + 1) % spacing = 0 := by simpa using h
        have hdvd : spacing ∣ idx + 1 := Nat.dvd_of_mod_eq_zero hmod
        rw [if_pos hdvd] at hdiv
        rw [interleaveWalk_cons_slot spacing idx r b rs bs h]
        exact ih (idx + 1) bs (by omega)
      · have hmod : ¬(idx + 1) % spacing = 0 := by simpa using h
        have hdvd : ¬spacing ∣ idx + 1 := fun hd => hmod (Nat.eq_zero_of_dvd_of_lt hd |> fun _ => Nat.mod_eq_zero_of_dvd hd)
        rw [if_neg hdvd] at hdiv
        rw [interleaveWalk_cons_noslot spacing idx r rs (b :: bs) h]
        exact ih (idx + 1) (b :: bs) (by simp only [List.length_cons]; omega)

/-- Inserting an element adds one to the length (JS `splice(i, 0, a)`). -/
theorem insertAt_length (l : List α) (i : Nat) (a : α) :
    (insertAt l i a).length = l.length + 1 := by
  simp [insertAt]
  omega

/-- Inserting an element that fails the filter leaves the filtered list
unchanged. -/
theorem insertAt_filter_not (q : α → Bool) (l : List α) (i : Nat) (a : α)
    (hq : q a = false) : (insertAt l i a).filter q = l.filter q := by
  calc (insertAt l i a).filter q
      = (l.take i).filter q ++ (l.drop i).filter q := by
        simp [insertAt, List.filter_append, hq]
    _ = (l.take i ++ l.drop i).filter q := (List.filter_append _ _).symm
    _ = l.filter q := by rw [List.take_append_drop]

/-- The splice loop adds exactly the leftover elements to the length. -/
theorem spliceLeftovers_length (total : Nat) (rem : List α) :
    ∀ (k : Nat) (acc : List α),
      (spliceLeftovers total k acc rem).length = acc.length + rem.length := by
  induction rem with
  | nil => intro k acc; simp [spliceLeftovers]
  | cons b bs ih =>
    intro k acc
    rw [show spliceLeftovers total k acc (b :: bs)
        = spliceLeftovers total (k + 1)
            (insertAt acc (acc.length * (k + 1) / (total - k + 1)) b) bs from rfl]
    rw [ih, insertAt_length]
    simp
    omega

/-- The splice loop only inserts elements failing the filter, so the
filtered result is the filtered accumulator. -/
theorem spliceLeftovers_filter (q : α → Bool) (total : Nat) (rem : List α) :
    ∀ (k : Nat) (acc : List α), (∀ b ∈ rem, q b = false) →
      (spliceLeftovers total k acc rem).filter q = acc.filter q := by
  induction rem with
  | nil => intro k acc _; rfl
  | cons b bs ih =>
    intro k acc hrem
    rw [show spliceLeftovers total k acc (b :: bs)
        = spliceLeftovers total (k + 1)
            (insertAt acc (acc.length * (k + 1) / (total - k + 1)) b) bs from rfl]
    rw [ih _ _ fun x hx => hrem x (List.mem_cons_of_mem b hx)]
    exact insertAt_filter_not q acc _ b (hrem b (List.mem_cons_self b bs))

/-- Combined behaviour of the interleave body on already-rotated inputs:
the output has `R + B` elements and restricts to the regular input; when
the walk consumes every boosted element (`B·spacing ≤ R`), it also
restricts to the boosted input and has no two adjacent boosted elements. -/
theorem insertBoostedCore_spec (p : α → Bool) (reg boo : List α)
    (hpr : ∀ a ∈ reg, p a = false) (hpb : ∀ b ∈ boo, p b = true) :
    (insertBoostedCore reg boo).length = reg.length + boo.length ∧
    (insertBoostedCore reg boo).filter (fun a => !p a) = reg ∧
    (boo.length * max (reg.length / boo.length) 2 ≤ reg.length →
      (insertBoostedCore reg boo).filter p = boo ∧
      List.Chain' (fun a b => p a = false ∨ p b = false) (insertBoostedCore reg boo)) := by
  have hout : insertBoostedCore reg boo
      = spliceLeftovers boo.length
          (boo.length
            - (interleaveWalk (max (reg.length / boo.length) 2) 0 reg boo).2.length)
          (interleaveWalk (max (reg.length / boo.length) 2) 0 reg boo).1
          (interleaveWalk (max (reg.length / boo.length) 2) 0 reg boo).2 := rfl
  have hlen := interleaveWalk_length (max (reg.length / boo.length) 2) reg 0 boo
  have hsnd := interleaveWalk_snd_mem p (max (reg.length / boo.length) 2) reg 0 boo hpr hpb
  refine ⟨?_, ?_, ?_⟩
  · rw [hout, spliceLeftovers_length]
    omega
  · rw [hout, spliceLeftovers_filter]
    · exact interleaveWalk_filter_reg p (max (reg.length / boo.length) 2) reg 0 boo hpr hpb
    · intro b hb
      simp [hpb b (hsnd b hb)]
  · intro hc
    have hposs : 0 < max (reg.length / boo.length) 2 := by omega
    have hdivle : boo.length ≤ reg.length / max (reg.length / boo.length) 2 :=
      (Nat.le_div_iff_mul_le hposs).mpr hc
    have hw2 : (interleaveWalk (max (reg.length / boo.length) 2) 0 reg boo).2 = [] := by
      apply interleaveWalk_exhausts (max (reg.length / boo.length) 2) reg 0 boo
      simpa using hdivle
    have hfin : insertBoostedCore reg boo
        = (interleaveWalk (max (reg.length / boo.length) 2) 0 reg boo).1 := by
      rw [hout, hw2]
      rfl
    constructor
    · rw [hfin]
      have hfb := interleaveWalk_filter_boo p (max (reg.length / boo.length) 2) reg 0 boo hpr hpb
      rw [hw2, List.append_nil] at hfb
      exact hfb
    · rw [hfin]
      exact (interleaveWalk_chain p (max (reg.length / boo.length) 2) reg 0 boo hpr hpb).1

/-- C1 (amended).  For nonempty regular and boosted inputs (`p` marks the
boosted tier), the interleaver output has exactly `R + B` items and its
regular items are exactly the rotated regular sequence in order; when every
boosted item is consumed during the walk over the regular sequence
(equivalently `B · spacing ≤ R` with `spacing = max(⌊R/B⌋, 2)`), the
boosted items are exactly the rotated boosted sequence in order and no two
boosted items are adjacent.  Without that proviso the splice loop for
leftover boosted items can create boosted-boosted adjacencies (even with
`B ≤ R`) and can permute the boosted order, see the counterexample. -/
theorem C1_interleaver_amended (p : α → Bool) (i : Nat) (reg boo : List α)
    (hreg : reg ≠ []) (hboo : boo ≠ [])
    (hpr : ∀ a ∈ reg, p a = false) (hpb : ∀ b ∈ boo, p b = true) :
    (insertBoostedLaunches i reg boo).length = reg.length + boo.length ∧
    (insertBoostedLaunches i reg boo).filter (fun a => !p a) = rotateLaunches i reg ∧
    (boo.length * max (reg.length / boo.length) 2 ≤ reg.length →
      (insertBoostedLaunches i reg boo).filter p = rotateLaunches i boo ∧
      List.Chain' (fun a b => p a = false ∨ p b = false) (insertBoostedLaunches i reg boo)) := by
  have hbe : boo.isEmpty = false := by
    cases boo with
    | nil => exact absurd rfl hboo
    | cons b bs => rfl
  have hre : reg.isEmpty = false := by
    cases reg with
    | nil => exact absurd rfl hreg
    | cons r rs => rfl
  have hun : insertBoostedLaunches i reg boo
      = insertBoostedCore (rotateLaunches i reg) (rotateLaunches i boo) := by
    simp [insertBoostedLaunches, hbe, hre]
  have hpr' : ∀ a ∈ rotateLaunches i reg, p a = false :=
    fun a ha => hpr a ((rotateLaunches_perm i reg).mem_iff.mp ha)
  have hpb' : ∀ b ∈ rotateLaunches i boo, p b = true :=
    fun b hb => hpb b ((rotateLaunches_perm i boo).mem_iff.mp hb)
  have hcore := insertBoostedCore_spec p (rotateLaunches i reg) (rotateLaunches i boo) hpr' hpb'
  rw [rotateLaunches_length i reg, rotateLaunches_length i boo] at hcore
  rw [hun]
  exact hcore

/-- C1 counterexample.  With 4 regular and 3 boosted items (so `B ≤ R`,
the claim's adjacency exception does not apply) the output contains two
adjacent boosted items; and with 2 regular and 5 boosted items the boosted
items do not keep their relative order (the output's boosted subsequence
starts with the second boosted item). -/
theorem C1_interleaver_cex :
    ¬List.Chain' (fun a b => a.1 = false ∨ b.1 = false)
        (insertBoostedLaunches 0
          [((false : Bool), (0 : Nat)), (false, 1), (false, 2), (false, 3)]
          [(true, 0), (true, 1), (true, 2)]) ∧
    (insertBoostedLaunches 0 [((false : Bool), (0 : Nat)), (false, 1)]
        [(true, 0), (true, 1), (true, 2), (true, 3), (true, 4)]).filter (fun a => a.1)
      ≠ [(true, 0), (true, 1), (true, 2), (true, 3), (true, 4)] := by
  have hout : insertBoostedLaunches 0
      [((false : Bool), (0 : Nat)), (false, 1), (false, 2), (false, 3)]
      [(true, 0), (true, 1), (true, 2)]
      = [(false, 0), (false, 1), (true, 0), (false, 2), (false, 3), (true, 1), (true, 2)] := by
    rfl
  constructor
  · rw [hout]
    intro hch
    simp [List.chain'_cons] at hch
  · decide

/-- C1 witness: the amended theorem applied at 4 regular and 2 boosted
items with rotation index 1, where `B · spacing = 4 ≤ R = 4`. -/
theorem C1_interleaver_witness :
    (insertBoostedLaunches 1
        [((false : Bool), (0 : Nat)), (false, 1), (false, 2), (false, 3)]
        [(true, 0), (true, 1)]).length
      = ([((false : Bool), (0 : Nat)), (false, 1), (false, 2), (false, 3)] : List (Bool × Nat)).length
        + ([((true : Bool), (0 : Nat)), (true, 1)] : List (Bool × Nat)).length ∧
    (insertBoostedLaunches 1
        [((false : Bool), (0 : Nat)), (false, 1), (false, 2), (false, 3)]
        [(true, 0), (true, 1)]).filter (fun a => !a.1)
      = rotateLaunches 1 [((false : Bool), (0 : Nat)), (false, 1), (false, 2), (false, 3)] ∧
    (([((true : Bool), (0 : Nat)), (true, 1)] : List (Bool × Nat)).length
        * max (([((false : Bool), (0 : Nat)), (false, 1), (false, 2), (false, 3)] : List (Bool × Nat)).length
            / ([((true : Bool), (0 : Nat)), (true, 1)] : List (Bool × Nat)).length) 2
        ≤ ([((false : Bool), (0 : Nat)), (false, 1), (false, 2), (false, 3)] : List (Bool × Nat)).length →
      (insertBoostedLaunches 1
          [((false : Bool), (0 : Nat)), (false, 1), (false, 2), (false, 3)]
          [(true, 0), (true, 1)]).filter (fun a => a.1)
        = rotateLaunches 1 [((true : Bool), (0 : Nat)), (true, 1)] ∧
      List.Chain' (fun a b => a.1 = false ∨ b.1 = false)
        (insertBoostedLaunches 1
          [((false : Bool), (0 : Nat)), (false, 1), (false, 2), (false, 3)]
          [(true, 0), (true, 1)])) :=
  C1_interleaver_amended (fun a => a.1) 1
    [((false : Bool), (0 : Nat)), (false, 1), (false, 2), (false, 3)]
    [(true, 0), (true, 1)]
    (by decide) (by decide) (by decide) (by decide)

/-- C2 (amended).  When the regular list is empty the interleaver returns
`getRotatedLaunches` of the empty regular list, i.e. the empty list, for
every boosted list (the boosted items are dropped, not emitted); in
particular both lists empty gives the empty output. -/
theorem C2_empty_regular_amended (i : Nat) (boo : List α) :
    insertBoostedLaunches i ([] : List α) boo = [] := by
  simp [insertBoostedLaunches, rotateLaunches]

/-- C2 counterexample.  With an empty regular list and one boosted item
the output is empty, not the boosted list. -/
theorem C2_empty_regular_cex :
    insertBoostedLaunches 0 ([] : List (Bool × Nat)) [(true, 0)] = [] ∧
    insertBoostedLaunches 0 ([] : List (Bool × Nat)) [(true, 0)] ≠ [(true, 0)] := by
  decide

/-- C6.  Rotating a sequence by `i` and then rotating the result by
`N − i` returns the original sequence (for every `i`; in particular for
`0 ≤ i ≤ N` as claimed). -/
theorem C6_rotation_inverse (l : List α) (i : Nat) :
    rotateLaunches (l.length - i) (rotateLaunches i l) = l := by
  have e1 : l.length - i = (l.drop i).length := (List.length_drop i l).symm
  rw [rotateLaunches, rotateLaunches, e1, List.drop_left, List.take_left,
    List.take_append_drop]

/-- Number of items loaded per batch (`BATCH_SIZE`, LaunchPage.tsx 14). -/
def BATCH_SIZE : Nat := 10

/-- The infinite-scroll state kept by `LaunchPage`: the rendered prefix,
the 1-indexed batch counter and the `hasMore` flag. -/
structure PaginatorState (α : Type u) where
  displayed : List α
  page : Nat
  hasMore : Bool
deriving DecidableEq, Repr

/-- Initial paginator state built by `fetchLaunches` (LaunchPage.tsx 42-45):
first batch of `BATCH_SIZE` displayed, `hasMore` iff more items exist
(`availableLaunches.length > BATCH_SIZE`), page counter 1. -/
def initialBatchState (allLaunches : List α) : PaginatorState α :=
  { displayed := allLaunches.take BATCH_SIZE
    page := 1
    hasMore := decide (BATCH_SIZE < allLaunches.length) }

/-- `loadMoreLaunches` (LaunchPage.tsx 58-73).  Returns the state unchanged
when `hasMore` is false (the `isLoading` guard is false after the initial
load).  Otherwise `nextPage = page + 1`,
`nextBatch = allLaunches.slice((nextPage-1)·B, (nextPage-1)·B + B)`; a
nonempty batch (`nextBatch.length > 0`) is appended with
`hasMore := end < allLaunches.length`, an empty batch clears `hasMore`. -/
def loadMoreLaunches (allLaunches : List α) (s : PaginatorState α) : PaginatorState α :=
  if s.hasMore then
    if 0 < ((allLaunches.drop ((s.page + 1 - 1) * BATCH_SIZE)).take BATCH_SIZE).length then
      { displayed := s.displayed ++ (allLaunches.drop ((s.page + 1 - 1) * BATCH_SIZE)).take BATCH_SIZE
        page := s.page + 1
        hasMore := decide ((s.page + 1 - 1) * BATCH_SIZE + BATCH_SIZE < allLaunches.length) }
    else
      { s with hasMore := false }
  else s

/-- The paginator invariant: after `k` calls the displayed list is the
prefix `take (BATCH_SIZE · page)` of the base list, `hasMore` says whether
that prefix is proper, the page counter is positive, and the page has
advanced as far as `k` allows. -/
theorem loadMoreLaunches_iterate_inv (allLaunches : List α) (k : Nat) :
    ((loadMoreLaunches allLaunches)^[k] (initialBatchState allLaunches)).displayed
      = allLaunches.take
          (BATCH_SIZE * ((loadMoreLaunches allLaunches)^[k] (initialBatchState allLaunches)).page) ∧
    ((loadMoreLaunches allLaunches)^[k] (initialBatchState allLaunches)).hasMore
      = decide (BATCH_SIZE * ((loadMoreLaunches allLaunches)^[k] (initialBatchState allLaunches)).page
          < allLaunches.length) ∧
    1 ≤ ((loadMoreLaunches allLaunches)^[k] (initialBatchState allLaunches)).page ∧
    min (BATCH_SIZE * (k + 1)) allLaunches.length
      ≤ BATCH_SIZE * ((loadMoreLaunches allLaunches)^[k] (initialBatchState allLaunches)).page := by
  induction k with
  | zero =>
    refine ⟨by simp [initialBatchState], by simp [initialBatchState],
      by simp [initialBatchState], by simp [initialBatchState]⟩
  | succ k ih =>
    rw [Function.iterate_succ_apply']
    obtain ⟨hdisp, hmore, hpage, hmin⟩ := ih
    set s := (loadMoreLaunches allLaunches)^[k] (initialBatchState allLaunches) with hs
    by_cases hm : s.hasMore = true
    · have hlt : BATCH_SIZE * s.page < allLaunches.length := by
        rw [hmore] at hm
        exact of_decide_eq_true hm
      have estart : (s.page + 1 - 1) * BATCH_SIZE = BATCH_SIZE * s.page := by
        simp [Nat.mul_comm]
      have hlen0 : 0 < ((allLaunches.drop ((s.page + 1 - 1) * BATCH_SIZE)).take BATCH_SIZE).length := by
        rw [List.length_take, List.length_drop, estart]
        simp [BATCH_SIZE] at hlt ⊢
        omega
      have hstep : loadMoreLaunches allLaunches s
          = { displayed := s.displayed ++ (allLaunches.drop ((s.page + 1 - 1) * BATCH_SIZE)).take BATCH_SIZE
              page := s.page + 1
              hasMore := decide ((s.page + 1 - 1) * BATCH_SIZE + BATCH_SIZE < allLaunches.length) } := by
        rw [loadMoreLaunches, if_pos hm, if_pos hlen0]
      have hd2 : (loadMoreLaunches allLaunches s).displayed
          = s.displayed ++ (allLaunches.drop (BATCH_SIZE * s.page)).take BATCH_SIZE := by
        rw [hstep, estart]
      have hp2 : (loadMoreLaunches allLaunches s).page = s.page + 1 := by
        rw [hstep]
      have hm2 : (loadMoreLaunches allLaunches s).hasMore
          = decide (BATCH_SIZE * s.page + BATCH_SIZE < allLaunches.length) := by
        rw [hstep, estart]
      refine ⟨?_, ?_, ?_, ?_⟩
      · rw [hd2, hp2, hdisp, ← List.take_add, Nat.mul_succ]
      · rw [hm2, hp2, Nat.mul_succ]
      · rw [hp2]
        omega
      · rw [hp2, Nat.mul_succ]
        simp only [BATCH_SIZE] at hmin hlt ⊢
        omega
    · have hm' : s.hasMore = false := by
        cases hcase : s.hasMore
        · rfl
        · exact absurd hcase hm
      have hstep : loadMoreLaunches allLaunches s = s := by
        rw [loadMoreLaunches, if_neg (by rw [hm']; exact Bool.false_ne_true)]
      rw [hstep]
      have hge : allLaunches.length ≤ BATCH_SIZE * s.page := by
        rw [hm'] at hmore
        have := of_decide_eq_false hmore.symm
        omega
      exact ⟨hdisp, hmore, hpage, by omega⟩

/-- A paginator state with `hasMore` false is a fixed point of `loadMore`. -/
theorem loadMoreLaunches_fixed (allLaunches : List α) (s : PaginatorState α)
    (h : s.hasMore = false) : loadMoreLaunches allLaunches s = s := by
  rw [loadMoreLaunches, if_neg (by rw [h]; exact Bool.false_ne_true)]

/-- C3.  Starting from the initial state, after `⌊N/BATCH_SIZE⌋` calls of
`loadMore` the displayed list is the entire base list (every item exactly
once, in original order), `hasMore` is false, and one further call changes
nothing (displayed, page and `hasMore` all unchanged). -/
theorem C3_pagination_exhausts (allLaunches : List α) :
    ((loadMoreLaunches allLaunches)^[allLaunches.length / BATCH_SIZE]
        (initialBatchState allLaunches)).displayed = allLaunches ∧
    ((loadMoreLaunches allLaunches)^[allLaunches.length / BATCH_SIZE]
        (initialBatchState allLaunches)).hasMore = false ∧
    loadMoreLaunches allLaunches
        ((loadMoreLaunches allLaunches)^[allLaunches.length / BATCH_SIZE]
          (initialBatchState allLaunches))
      = (loadMoreLaunches allLaunches)^[allLaunches.length / BATCH_SIZE]
          (initialBatchState allLaunches) := by
  obtain ⟨hdisp, hmore, hpage, hmin⟩ :=
    loadMoreLaunches_iterate_inv allLaunches (allLaunches.length / BATCH_SIZE)
  set s := (loadMoreLaunches allLaunches)^[allLaunches.length / BATCH_SIZE]
    (initialBatchState allLaunches) with hs
  have hmin10 : min (10 * (allLaunches.length / 10 + 1)) allLaunches.length
      ≤ 10 * s.page := by
    simpa [BATCH_SIZE] using hmin
  have hcover : allLaunches.length ≤ BATCH_SIZE * s.page := by
    show allLaunches.length ≤ 10 * s.page
    omega
  have hfalse : s.hasMore = false := by
    rw [hmore, decide_eq_false_iff_not]
    omega
  refine ⟨?_, hfalse, loadMoreLaunches_fixed allLaunches s hfalse⟩
  rw [hdisp]
  exact List.take_of_length_le hcover

/-- C10.  After every number of `loadMore` calls the displayed list is the
prefix of the base list of length `min(BATCH_SIZE · page, N)`, and once
`hasMore` is false a further call leaves the state (hence `hasMore`)
unchanged, so it never becomes true again. -/
theorem C10_pagination_invariant (allLaunches : List α) (k : Nat) :
    ((loadMoreLaunches allLaunches)^[k] (initialBatchState allLaunches)).displayed
      = allLaunches.take
          (BATCH_SIZE * ((loadMoreLaunches allLaunches)^[k] (initialBatchState allLaunches)).page) ∧
    ((loadMoreLaunches allLaunches)^[k] (initialBatchState allLaunches)).displayed.length
      = min (BATCH_SIZE * ((loadMoreLaunches allLaunches)^[k] (initialBatchState allLaunches)).page)
          allLaunches.length ∧
    (((loadMoreLaunches allLaunches)^[k] (initialBatchState allLaunches)).hasMore = false →
      loadMoreLaunches allLaunches
          ((loadMoreLaunches allLaunches)^[k] (initialBatchState allLaunches))
        = (loadMoreLaunches allLaunches)^[k] (initialBatchState allLaunches)) := by
  obtain ⟨hdisp, hmore, hpage, hmin⟩ := loadMoreLaunches_iterate_inv allLaunches k
  refine ⟨hdisp, ?_, fun h => loadMoreLaunches_fixed allLaunches _ h⟩
  rw [hdisp, List.length_take]

/-- C10 witness: the invariant applied to a 12-item base list after two
`loadMore` calls, where the fixed-point clause's hypothesis holds. -/
theorem C10_pagination_witness :
    ((loadMoreLaunches (List.range 12))^[2] (initialBatchState (List.range 12))).hasMore
        = false ∧
    loadMoreLaunches (List.range 12)
        ((loadMoreLaunches (List.range 12))^[2] (initialBatchState (List.range 12)))
      = (loadMoreLaunches (List.range 12))^[2] (initialBatchState (List.range 12)) :=
  ⟨by decide, (C10_pagination_invariant (List.range 12) 2).2.2 (by decide)⟩

/-- Milliseconds per day, for JS `Date` arithmetic at ms precision. -/
def msPerDay : Int := 86400000

/-- Day number of `lastWeekStart` (LaunchPage.tsx 117-120).  `nowDay` is
the current local day number counted from an epoch Sunday, so the weekday
(JS `getDay()`) is `nowDay % 7`; the code sets the date to
`getDate() - getDay() - 7` at 00:00:00.000, i.e. the Sunday one week back. -/
def lastWeekStartDay (nowDay : Int) : Int :=
  nowDay - nowDay % 7 - 7

/-- Start of the leaderboard window in epoch ms (00:00:00.000). -/
def lastWeekStartMs (nowDay : Int) : Int :=
  lastWeekStartDay nowDay * msPerDay

/-- End of the leaderboard window in epoch ms (LaunchPage.tsx 122-124):
`lastWeekStart + 6` days at 23:59:59.999. -/
def lastWeekEndMs (nowDay : Int) : Int :=
  (lastWeekStartDay nowDay + 6) * msPerDay + (msPerDay - 1)

/-- The filter predicate of `lastWeekWinners` (LaunchPage.tsx 126-129):
`launchDate >= lastWeekStart && launchDate <= lastWeekEnd`. -/
def inLastWeek (nowDay : Int) (l : Launch) : Bool :=
  decide (lastWeekStartMs nowDay ≤ l.launchDate)
    && decide (l.launchDate ≤ lastWeekEndMs nowDay)

/-- JS sort comparator `(a, b) => (b.upvotes || 0) - (a.upvotes || 0)`
(LaunchPage.tsx 132), as the stable-sort order: `a` stays before `b` iff
the comparator is ≤ 0, i.e. `b.upvotes ≤ a.upvotes`. -/
def upvotesDescLe (a b : Launch) : Bool :=
  decide (b.upvotes ≤ a.upvotes)

/-- `lastWeekWinners` (LaunchPage.tsx 116-134): filter all launches to the
previous Sunday-aligned week, stable-sort descending by upvotes
(ECMAScript `Array.sort` is stable), and take the first 3. -/
def lastWeekWinners (nowDay : Int) (allLaunches : List Launch) : List Launch :=
  (((allLaunches.filter (inLastWeek nowDay)).mergeSort upvotesDescLe).take 3)

/-- The descending-upvotes order is transitive. -/
theorem upvotesDescLe_trans : ∀ a b c : Launch,
    upvotesDescLe a b = true → upvotesDescLe b c = true → upvotesDescLe a c = true := by
  intro a b c hab hbc
  simp only [upvotesDescLe, decide_eq_true_eq] at hab hbc ⊢
  omega

/-- The descending-upvotes order is total. -/
theorem upvotesDescLe_total : ∀ a b : Launch,
    (upvotesDescLe a b || upvotesDescLe b a) = true := by
  intro a b
  simp only [upvotesDescLe, Bool.or_eq_true, decide_eq_true_eq]
  omega

/-- C5.  The weekly leaderboard: winners come only from the listings of the
Sunday-aligned previous week; every such listing is a candidate in the
sorted pool; winners are in descending upvote order; ties keep the original
order (the sorted pool restricted to any fixed upvote count equals the
filtered pool so restricted); with fewer than 3 eligible listings all of
them are returned; and the winners count is `min 3 (number eligible)`. -/
theorem C5_leaderboard (nowDay : Int) (allLaunches : List Launch) :
    (∀ x ∈ lastWeekWinners nowDay allLaunches,
        x ∈ allLaunches ∧ inLastWeek nowDay x = true) ∧
    (∀ x ∈ allLaunches, inLastWeek nowDay x = true →
        x ∈ (allLaunches.filter (inLastWeek nowDay)).mergeSort upvotesDescLe) ∧
    List.Pairwise (fun a b => b.upvotes ≤ a.upvotes) (lastWeekWinners nowDay allLaunches) ∧
    (∀ u : Nat,
      ((allLaunches.filter (inLastWeek nowDay)).mergeSort upvotesDescLe).filter
          (fun l => l.upvotes == u)
        = (allLaunches.filter (inLastWeek nowDay)).filter (fun l => l.upvotes == u)) ∧
    ((allLaunches.filter (inLastWeek nowDay)).length < 3 →
      (lastWeekWinners nowDay allLaunches).Perm (allLaunches.filter (inLastWeek nowDay))) ∧
    (lastWeekWinners nowDay allLaunches).length
      = min 3 (allLaunches.filter (inLastWeek nowDay)).length := by
  have hperm := List.mergeSort_perm (allLaunches.filter (inLastWeek nowDay)) upvotesDescLe
  refine ⟨?_, ?_, ?_, ?_, ?_, ?_⟩
  · intro x hx
    have hxm : x ∈ (allLaunches.filter (inLastWeek nowDay)).mergeSort upvotesDescLe :=
      (List.take_sublist 3 _).subset hx
    have hxs : x ∈ allLaunches.filter (inLastWeek nowDay) := hperm.mem_iff.mp hxm
    exact List.mem_filter.mp hxs
  · intro x hx hweek
    exact hperm.mem_iff.mpr (List.mem_filter.mpr ⟨hx, hweek⟩)
  · have hsorted := List.sorted_mergeSort upvotesDescLe_trans upvotesDescLe_total
      (allLaunches.filter (inLastWeek nowDay))
    have hsorted' : List.Pairwise (fun a b => b.upvotes ≤ a.upvotes)
        ((allLaunches.filter (inLastWeek nowDay)).mergeSort upvotesDescLe) :=
      hsorted.imp fun h => by simpa [upvotesDescLe] using h
    exact List.Pairwise.sublist (List.take_sublist 3 _) hsorted'
  · intro u
    have hc1 : ((allLaunches.filter (inLastWeek nowDay)).filter
          (fun l => l.upvotes == u)).Sublist (allLaunches.filter (inLastWeek nowDay)) :=
      List.filter_sublist _
    have hcu : ∀ x ∈ (allLaunches.filter (inLastWeek nowDay)).filter
        (fun l => l.upvotes == u), x.upvotes = u := by
      intro x hx
      have := (List.mem_filter.mp hx).2
      simpa using this
    have hpc : List.Pairwise (fun a b => upvotesDescLe a b = true)
        ((allLaunches.filter (inLastWeek nowDay)).filter (fun l => l.upvotes == u)) := by
      apply List.pairwise_of_forall_mem_list
      intro a ha b hb
      simp [upvotesDescLe, hcu a ha, hcu b hb]
    have hsub := List.sublist_mergeSort upvotesDescLe_trans upvotesDescLe_total hpc hc1
    have hsub2 : ((allLaunches.filter (inLastWeek nowDay)).filter
          (fun l => l.upvotes == u)).Sublist
        (((allLaunches.filter (inLastWeek nowDay)).mergeSort upvotesDescLe).filter
          (fun l => l.upvotes == u)) := by
      have := hsub.filter (fun l => l.upvotes == u)
      rwa [List.filter_eq_self.mpr (fun a ha => by simp [hcu a ha])] at this
    have hlen : (((allLaunches.filter (inLastWeek nowDay)).mergeSort upvotesDescLe).filter
          (fun l => l.upvotes == u)).length
        = ((allLaunches.filter (inLastWeek nowDay)).filter
          (fun l => l.upvotes == u)).length :=
      (hperm.filter (fun l => l.upvotes == u)).length_eq
    exact (hsub2.eq_of_length hlen.symm).symm
  · intro hlt
    have hml : ((allLaunches.filter (inLastWeek nowDay)).mergeSort upvotesDescLe).length ≤ 3 := by
      rw [hperm.length_eq]
      omega
    rw [lastWeekWinners, List.take_of_length_le hml]
    exact hperm
  · rw [lastWeekWinners, List.length_take, hperm.length_eq]

/-- C5 witness: the leaderboard with one eligible listing (launched on the
Sunday of the previous week, `nowDay = 14`, a Sunday) returns that listing. -/
theorem C5_leaderboard_witness :
    (([⟨1, ListingType.regular, 604800000, 5⟩] : List Launch).filter (inLastWeek 14)).length
        < 3 ∧
    (lastWeekWinners 14 [⟨1, ListingType.regular, 604800000, 5⟩]).Perm
      (([⟨1, ListingType.regular, 604800000, 5⟩] : List Launch).filter (inLastWeek 14)) :=
  ⟨by decide,
    (C5_leaderboard 14 [⟨1, ListingType.regular, 604800000, 5⟩]).2.2.2.2.1 (by decide)⟩

/-- Cache TTL (`CACHE_DURATION`, launches.ts 6): 5 minutes in ms. -/
def CACHE_DURATION : Nat := 5 * 60 * 1000

/-- One entry of the launches cache (launches.ts 9-18): the cached data
together with the fetch timestamp (epoch ms). -/
structure LaunchesCacheEntry (α : Type u) where
  data : List α
  timestamp : Nat
deriving DecidableEq, Repr

/-- Observable outcome of one `getLaunches` call: the cache entry after the
call, the returned value, and whether a store query was issued.  The result
is an `Except` so that "propagating a failure" is expressible; the code
catches every store error, so it in fact always returns `Except.ok`. -/
structure GetLaunchesOutcome (α : Type u) where
  entryAfter : Option (LaunchesCacheEntry α)
  result : Except Unit (List α)
  queried : Bool
deriving Repr

/-- `getLaunches` (launches.ts 79-131).  If a cache entry exists and
`now − timestamp < CACHE_DURATION`, return it without querying.  Otherwise
query the store (`store` is the outcome of the Firestore fetch pipeline):
on success overwrite the entry with `{data, timestamp: now}` and return the
fresh data; on failure (`catch`) leave the entry alone and return
`cache.launches?.data || []` — the stale data if an entry exists, else the
empty list. -/
def getLaunches (entry : Option (LaunchesCacheEntry α)) (now : Nat)
    (store : Except Unit (List α)) : GetLaunchesOutcome α :=
  match entry with
  | some e =>
    if now - e.timestamp < CACHE_DURATION then
      { entryAfter := some e, result := Except.ok e.data, queried := false }
    else
      match store with
      | Except.ok d =>
        { entryAfter := some { data := d, timestamp := now }
          result := Except.ok d, queried := true }
      | Except.error _ =>
        { entryAfter := some e, result := Except.ok e.data, queried := true }
  | none =>
    match store with
    | Except.ok d =>
      { entryAfter := some { data := d, timestamp := now }
        result := Except.ok d, queried := true }
    | Except.error _ =>
      { entryAfter := none, result := Except.ok [], queried := true }

/-- C4 (amended).  Within the 5-minute TTL a `get` returns the cached data,
issues no store query and keeps the entry; after expiry (or with no entry)
it issues exactly one query, and on success overwrites the entry with the
fresh data stamped `now` and returns it; a failing query after expiry
returns the stale entry's data and keeps the entry; a failing query with no
entry returns the empty list (the code catches the error, it does not
propagate it). -/
theorem C4_cache_amended (e : LaunchesCacheEntry α) (d : List α) (now : Nat)
    (store : Except Unit (List α)) :
    (now - e.timestamp < CACHE_DURATION →
      getLaunches (some e) now store
        = { entryAfter := some e, result := Except.ok e.data, queried := false }) ∧
    (¬now - e.timestamp < CACHE_DURATION →
      (getLaunches (some e) now store).queried = true ∧
      getLaunches (some e) now (Except.ok d)
        = { entryAfter := some { data := d, timestamp := now }
            result := Except.ok d, queried := true } ∧
      getLaunches (some e) now (Except.error ())
        = { entryAfter := some e, result := Except.ok e.data, queried := true }) ∧
    getLaunches (none : Option (LaunchesCacheEntry α)) now (Except.ok d)
      = { entryAfter := some { data := d, timestamp := now }
          result := Except.ok d, queried := true } ∧
    getLaunches (none : Option (LaunchesCacheEntry α)) now (Except.error ())
      = { entryAfter := none, result := Except.ok [], queried := true } := by
  refine ⟨fun h => ?_, fun h => ⟨?_, ?_, ?_⟩, rfl, rfl⟩
  · simp only [getLaunches]
    rw [if_pos h]
  · simp only [getLaunches]
    rw [if_neg h]
    cases store <;> rfl
  · simp only [getLaunches]
    rw [if_neg h]
  · simp only [getLaunches]
    rw [if_neg h]

/-- C4 counterexample.  With no cache entry and a failing store query the
call returns the successful empty list, it does not propagate the failure
as the claim states. -/
theorem C4_cache_cex :
    (getLaunches (none : Option (LaunchesCacheEntry Nat)) 0 (Except.error ())).result
        = Except.ok [] ∧
    (getLaunches (none : Option (LaunchesCacheEntry Nat)) 0 (Except.error ())).result
        ≠ Except.error () := by
  constructor
  · rfl
  · intro h
    rw [show (getLaunches (none : Option (LaunchesCacheEntry Nat)) 0
        (Except.error ())).result = Except.ok [] from rfl] at h
    exact Except.noConfusion h

/-- C4 witness: the amended theorem applied at a concrete entry, fresh at
`now = 1` for the first clause, and at `now = 300000` (exactly the TTL) for
the expired clauses. -/
theorem C4_cache_witness :
    ((1 : Nat) - (0 : Nat) < CACHE_DURATION →
      getLaunches (some ⟨[5], 0⟩) 1 (Except.ok [7])
        = { entryAfter := some ⟨[(5 : Nat)], 0⟩, result := Except.ok [5], queried := false }) ∧
    (¬(300000 : Nat) - (0 : Nat) < CACHE_DURATION →
      (getLaunches (some ⟨[(5 : Nat)], 0⟩) 300000 (Except.error ())).queried = true ∧
      getLaunches (some ⟨[(5 : Nat)], 0⟩) 300000 (Except.ok [7])
        = { entryAfter := some ⟨[7], 300000⟩, result := Except.ok [7], queried := true } ∧
      getLaunches (some ⟨[(5 : Nat)], 0⟩) 300000 (Except.error ())
        = { entryAfter := some ⟨[5], 0⟩, result := Except.ok [5], queried := true }) ∧
    ((1 : Nat) - (0 : Nat) < CACHE_DURATION →
      getLaunches (some ⟨[(5 : Nat)], 0⟩) 1 (Except.error ())
        = { entryAfter := some ⟨[5], 0⟩, result := Except.ok [5], queried := false }) :=
  ⟨(C4_cache_amended ⟨[5], 0⟩ [7] 1 (Except.ok [7])).1,
   fun h => ⟨((C4_cache_amended ⟨[5], 0⟩ [7] 300000 (Except.error ())).2.1 h).1,
     ((C4_cache_amended ⟨[5], 0⟩ [7] 300000 (Except.error ())).2.1 h).2.1,
     ((C4_cache_amended ⟨[5], 0⟩ [7] 300000 (Except.error ())).2.1 h).2.2⟩,
   (C4_cache_amended ⟨[5], 0⟩ [7] 1 (Except.error ())).1⟩
/-- The eligibility filter of `fetchLaunches` (LaunchPage.tsx 33-38):
`launchDate <= now || listingType === 'premium' || listingType === 'boosted'`.
`getLaunches` (launches.ts 79-131) applies no date filter to the approved
listings it returns, so this is the whole public-display eligibility
predicate for an approved listing. -/
def isAvailableLaunch (now : Int) (l : Launch) : Bool :=
  decide (l.launchDate ≤ now) || l.listingType == ListingType.premium
    || l.listingType == ListingType.boosted

/-- `availableLaunches` (LaunchPage.tsx 35-38). -/
def availableLaunches (now : Int) (launches : List Launch) : List Launch :=
  launches.filter (isAvailableLaunch now)

/-- C7.  An approved listing is eligible for public display exactly when it
is premium or boosted (regardless of date) or its launch date has passed;
regular listings with a future launch date are excluded; and the filtered
list contains exactly the eligible listings. -/
theorem C7_eligibility (now : Int) (l : Launch) (launches : List Launch) :
    (isAvailableLaunch now l = true ↔
      (l.listingType = ListingType.premium ∨ l.listingType = ListingType.boosted ∨
        l.launchDate ≤ now)) ∧
    (l.listingType = ListingType.regular → now < l.launchDate →
      isAvailableLaunch now l = false) ∧
    (l ∈ availableLaunches now launches ↔ l ∈ launches ∧ isAvailableLaunch now l = true) := by
  refine ⟨?_, ?_, List.mem_filter⟩
  · simp only [isAvailableLaunch, Bool.or_eq_true, decide_eq_true_eq, beq_iff_eq]
    tauto
  · intro hreg hlt
    simp only [isAvailableLaunch, hreg]
    simp only [Bool.or_eq_false_iff, decide_eq_false_iff_not]
    refine ⟨⟨by omega, by simp⟩, by simp⟩

/-- C7 witness: a regular listing dated 200 is not available at instant
100. -/
theorem C7_eligibility_witness :
    isAvailableLaunch 100 ⟨1, ListingType.regular, 200, 0⟩ = false :=
  (C7_eligibility 100 ⟨1, ListingType.regular, 200, 0⟩ []).2.1 rfl (by decide)

/-- Upvote state of a listing: the counter (a JS number, modelled as an
integer) and the set of voter identities (`upvotedBy` is a set of user ids,
unique and unordered). -/
structure UpvoteState where
  upvotes : Int
  upvotedBy : Finset String
deriving DecidableEq

/-- Modelled from the spec: `toggleUpvote`, imported by
`LaunchListItem.tsx` from `lib/data/launches` but not among the provided
sources.  Spec §4.6: if the acting user identity is already a member of
`upvotedBy`, remove it and decrement `upvotes` by 1 (un-vote); otherwise
add it and increment `upvotes` by 1 (vote).  The Firestore update rule
(firestore.rules 51-68) and the optimistic update in `handleUpvote`
(LaunchListItem.tsx 69-75) encode the same transition. -/
def toggleUpvote (uid : String) (s : UpvoteState) : UpvoteState :=
  if uid ∈ s.upvotedBy then
    { upvotes := s.upvotes - 1, upvotedBy := s.upvotedBy.erase uid }
  else
    { upvotes := s.upvotes + 1, upvotedBy := insert uid s.upvotedBy }

/-- C8.  Toggling twice for the same user restores the state; one toggle
adds the user and increments by exactly 1 when absent, removes the user
and decrements by exactly 1 when present; and `upvotes == |upvotedBy|` is
preserved. -/
theorem C8_toggle_roundtrip (uid : String) (s : UpvoteState) :
    toggleUpvote uid (toggleUpvote uid s) = s ∧
    (uid ∉ s.upvotedBy →
      (toggleUpvote uid s).upvotes = s.upvotes + 1 ∧
      (toggleUpvote uid s).upvotedBy = insert uid s.upvotedBy) ∧
    (uid ∈ s.upvotedBy →
      (toggleUpvote uid s).upvotes = s.upvotes - 1 ∧
      (toggleUpvote uid s).upvotedBy = s.upvotedBy.erase uid) ∧
    (s.upvotes = (s.upvotedBy.card : Int) →
      (toggleUpvote uid s).upvotes = ((toggleUpvote uid s).upvotedBy.card : Int)) := by
  by_cases hm : uid ∈ s.upvotedBy
  · have h1 : toggleUpvote uid s
        = { upvotes := s.upvotes - 1, upvotedBy := s.upvotedBy.erase uid } := by
      rw [toggleUpvote, if_pos hm]
    have hle : 1 ≤ s.upvotedBy.card := Finset.card_pos.mpr ⟨uid, hm⟩
    refine ⟨?_, fun h => absurd hm h, fun _ => by rw [h1]; exact ⟨rfl, rfl⟩, fun hc => ?_⟩
    · rw [h1, toggleUpvote, if_neg (Finset.not_mem_erase uid s.upvotedBy)]
      have he : s.upvotes - 1 + 1 = s.upvotes := by omega
      simp only [he, Finset.insert_erase hm]
    · rw [h1]
      simp only [Finset.card_erase_of_mem hm]
      rw [Nat.cast_sub hle]
      omega
  · have h1 : toggleUpvote uid s
        = { upvotes := s.upvotes + 1, upvotedBy := insert uid s.upvotedBy } := by
      rw [toggleUpvote, if_neg hm]
    refine ⟨?_, fun _ => by rw [h1]; exact ⟨rfl, rfl⟩, fun h => absurd h hm, fun hc => ?_⟩
    · rw [h1, toggleUpvote, if_pos (Finset.mem_insert_self uid s.upvotedBy)]
      have he : s.upvotes + 1 - 1 = s.upvotes := by omega
      simp only [he, Finset.erase_insert hm]
    · rw [h1]
      simp only [Finset.card_insert_of_not_mem hm]
      push_cast
      omega

/-- C8 witness: the round trip and the toggle delta at the empty state with
user "u". -/
theorem C8_toggle_witness :
    toggleUpvote "u" (toggleUpvote "u" ⟨0, ∅⟩) = (⟨0, ∅⟩ : UpvoteState) ∧
    ((toggleUpvote "u" ⟨0, ∅⟩).upvotes = 0 + 1 ∧
      (toggleUpvote "u" ⟨0, ∅⟩).upvotedBy = insert "u" (∅ : Finset String)) ∧
    (toggleUpvote "u" ⟨0, ∅⟩).upvotes = ((toggleUpvote "u" ⟨0, ∅⟩).upvotedBy.card : Int) :=
  ⟨(C8_toggle_roundtrip "u" ⟨0, ∅⟩).1,
   (C8_toggle_roundtrip "u" ⟨0, ∅⟩).2.1 (by simp),
   (C8_toggle_roundtrip "u" ⟨0, ∅⟩).2.2.2 (by simp)⟩

/-- Firestore list `hasAll`: `l` contains every element of `sub`. -/
def hasAllL (l sub : List String) : Bool :=
  sub.all fun x => l.contains x

/-- Firestore list `removeAll`: drop every occurrence of the given
elements. -/
def removeAllL (l rem : List String) : List String :=
  l.filter fun x => !rem.contains x

/-- Equality of two lists viewed as sets of user identities. -/
def setEqL (a b : List String) : Bool :=
  hasAllL a b && hasAllL b a

/-- The fields of a startup document the update rule reads: the owner id,
the upvote counter, the voter list, and a stand-in for every remaining
field. -/
structure StartupDoc where
  userId : String
  upvotes : Int
  upvotedBy : List String
  otherData : String
deriving DecidableEq, Repr

/-- `request.resource.data.diff(resource.data).affectedKeys()
.hasOnly(['upvotes', 'upvotedBy'])` (firestore.rules 52): no field other
than `upvotes` and `upvotedBy` changes. -/
def onlyUpvoteFieldsAffected (old new : StartupDoc) : Bool :=
  old.userId == new.userId && old.otherData == new.otherData

/-- The `allow update` rule for `/startups/{startupId}`
(firestore.rules 45-69): admin, owner, or an authenticated principal whose
update touches only the upvote fields and matches the "Adding upvote"
branch (`!old.upvotedBy.hasAll([uid]) && new.upvotedBy.hasAll(old.upvotedBy)
&& new.upvotedBy.hasAll([uid]) && new.upvotes == old.upvotes + 1`) or the
"Removing upvote" branch (`old.upvotedBy.hasAll([uid]) &&
new.upvotedBy.hasAll(old.upvotedBy.removeAll([uid])) &&
new.upvotes == old.upvotes - 1`). -/
def allowStartupUpdate (auth : Option String) (isAdminUser : Bool)
    (old new : StartupDoc) : Bool :=
  match auth with
  | none => false
  | some uid =>
    isAdminUser || uid == old.userId ||
      (onlyUpvoteFieldsAffected old new &&
        ((!hasAllL old.upvotedBy [uid] && hasAllL new.upvotedBy old.upvotedBy
            && hasAllL new.upvotedBy [uid] && new.upvotes == old.upvotes + 1) ||
         (hasAllL old.upvotedBy [uid]
            && hasAllL new.upvotedBy (removeAllL old.upvotedBy [uid])
            && new.upvotes == old.upvotes - 1)))

/-- The exact-toggle predicate the claim requires of every permitted
non-owner, non-admin update: either the principal is added to `upvotedBy`
(as a set) with the counter up by exactly one, or removed from it with the
counter down by exactly one. -/
def exactToggleDelta (uid : String) (old new : StartupDoc) : Bool :=
  (!old.upvotedBy.contains uid
      && setEqL new.upvotedBy (uid :: old.upvotedBy)
      && new.upvotes == old.upvotes + 1)
    || (old.upvotedBy.contains uid
      && setEqL new.upvotedBy (removeAllL old.upvotedBy [uid])
      && new.upvotes == old.upvotes - 1)

/-- C9 failing input.  The principal "u" is neither owner nor admin; the
old document has `upvotes = 1`, `upvotedBy = ["u"]`; the new document has
`upvotes = 0`, `upvotedBy = ["u"]`.  The rule's "Removing upvote" branch
only requires `new.upvotedBy ⊇ old.upvotedBy.removeAll([uid])`, which the
unchanged list satisfies, so the update is permitted — but it is not an
exact toggle delta (the principal stays a member while the counter drops,
breaking `upvotes == |upvotedBy|`). -/
theorem C9_rules_failing_input :
    allowStartupUpdate (some "u") false
        ⟨"owner", 1, ["u"], "x"⟩ ⟨"owner", 0, ["u"], "x"⟩ = true ∧
    exactToggleDelta "u" ⟨"owner", 1, ["u"], "x"⟩ ⟨"owner", 0, ["u"], "x"⟩ = false := by
  decide

end Launch14
